import Mathlib

/-!
# Verification of the LCMV resolution-matrix core of mne-python

Shallow embedding of `mne/beamformer/resolution_matrix_lcmv.py` and the
channel adapter it relies on.  Matrices are lists of rows over `ℤ`
(an exact carrier — the code applies only addition and multiplication — standing in for the dense float arrays of the source), sizes are
explicit, and fallible operations return `Except`.
-/

namespace MneRes

/-- Errors surfaced by the core: a channel set that cannot be reconciled
(the spec's `ChannelMismatchError`, raised by the channel adapter) and a
matrix-multiplication shape mismatch (numpy's error on `dot`). -/
inductive MneError where
  | channelMismatch
  | dimMismatch
deriving DecidableEq, Repr

/-- A dense matrix as a list of rows of integers. -/
abbrev Mat := List (List ℤ)

/-- Number of rows of a matrix. -/
def nrows (A : Mat) : Nat := A.length

/-- Number of columns of a matrix: the length of its first row
(0 for the empty matrix). -/
def ncols (A : Mat) : Nat := ((A.head?).map List.length).getD 0

/-- Dot product of two vectors (truncating to the shorter, as `zipWith`
does; on well-formed inputs the lengths agree). -/
def dotProd (a b : List ℤ) : ℤ := (List.zipWith (· * ·) a b).sum

/-- Column `j` of a matrix. -/
def colOf (B : Mat) (j : Nat) : List ℤ := B.map (fun r => r.getD j 0)

/-- Raw matrix product: entry `(i, j)` is the dot product of row `i` of
`A` with column `j` of `B`.  The result always has `A.length` rows and
`ncols B` columns. -/
def matMul (A B : Mat) : Mat :=
  A.map (fun arow => (List.range (ncols B)).map (fun j => dotProd arow (colOf B j)))

/-- `numpy.dot` on 2-D arrays: requires the inner dimensions to agree,
otherwise raises (modelled as `dimMismatch`). -/
def npdot (A B : Mat) : Except MneError Mat :=
  if ncols A = nrows B then .ok (matMul A B) else .error .dimMismatch

/-- Noise covariance as the LCMV code reads it: an ordered channel-name
list and a declared bad-channel list (`filters['noise_cov']['names']`,
`filters['noise_cov']['bads']`). -/
structure Cov where
  names : List String
  bads : List String
deriving DecidableEq, Repr

/-- An LCMV beamformer filter object: weight matrix, whitening
transform, and the noise covariance used to build it. -/
structure Beamformer where
  weights : Mat
  whitener : Mat
  noise_cov : Cov
deriving DecidableEq, Repr

/-- A forward operator: ordered channel names and the leadfield matrix
`forward['sol']['data']` whose rows correspond to the channels. -/
structure Forward where
  ch_names : List String
  sol : Mat
deriving DecidableEq, Repr

/-- Modelled from the spec: `pick_channels_forward` (the Forward/Channel
Adapter of §4.1) is not part of the excerpted sources.  Per the spec,
given an ordered list of channels it returns a new forward operator
restricted to exactly those channels in that order, and fails with a
`ChannelMismatchError` if any required channel is absent from the
forward operator. -/
def pick_channels_forward (forward : Forward) (chs : List String) :
    Except MneError Forward :=
  if chs.all (fun c => forward.ch_names.contains c) then
    .ok { ch_names := chs,
          sol := chs.map (fun c => forward.sol.getD (forward.ch_names.indexOf c) []) }
  else
    .error .channelMismatch

/-- The good-channel list computed by `make_resolution_matrix_lcmv`:
the covariance's channel names with the declared bad channels removed,
preserving order (`[c for c in ch_names if (c not in bads_filt)]`). -/
def good_ch_names (filters : Beamformer) : List String :=
  filters.noise_cov.names.filter (fun c => !(filters.noise_cov.bads.contains c))

/-- A log record emitted through `logger.info`; the LCMV builder logs
the two dimensions of the resolution matrix. -/
inductive LogRec where
  | info (rows cols : Nat)
deriving DecidableEq, Repr

/-- `_get_matrix_from_lcmv`: the effective filter matrix is
`filters['weights'].dot(filters['whitener'])` (whitening folded into the
weights so they apply to unwhitened data). -/
def _get_matrix_from_lcmv (filters : Beamformer) : Except MneError Mat :=
  npdot filters.weights filters.whitener

/-- `make_resolution_matrix_lcmv`: good channels from the filter's noise
covariance, forward restricted to them in order, resolution matrix is
`filtmat.dot(leadfield)`; on success one informational log record with
the resulting shape is emitted.  The log trace is part of the returned
value so the effect is explicit. -/
def make_resolution_matrix_lcmv (forward : Forward) (filters : Beamformer) :
    Except MneError (Mat × List LogRec) := do
  let bads_filt := filters.noise_cov.bads
  let ch_names := filters.noise_cov.names
  let ch_names := ch_names.filter (fun c => !(bads_filt.contains c))
  let fwd ← pick_channels_forward forward ch_names
  let leadfield := fwd.sol
  let filtmat ← _get_matrix_from_lcmv filters
  let resmat ← npdot filtmat leadfield
  pure (resmat, [LogRec.info (nrows resmat) (ncols resmat)])

/-- Decidable equality for `Except`, so concrete runs of the embedding can
be checked by `decide`. -/
instance instDecEqExcept {e a : Type} [DecidableEq e] [DecidableEq a] :
    DecidableEq (Except e a) := fun
  | .ok x, .ok y => decidable_of_iff (x = y) (by simp)
  | .error x, .error y => decidable_of_iff (x = y) (by simp)
  | .ok _, .error _ => isFalse (by simp)
  | .error _, .ok _ => isFalse (by simp)

/-- Orientation constraint of a source space: fixed (1 component per
source) or free (3 components per source). -/
inductive Orient where
  | fixed
  | free
deriving DecidableEq, Repr

/-- Number of dipole components per source under an orientation
constraint (spec §3: free → 3× sources). -/
def nComp : Orient → Nat
  | .fixed => 1
  | .free => 3

/-- The caller-visible state of one call: the forward operator and the
filter object the caller passed in. -/
structure CallState where
  forward : Forward
  filters : Beamformer
deriving DecidableEq, Repr

/-- Reading `filters['noise_cov']['bads']`: a Python attribute/key read,
it returns the state unchanged. -/
def readFiltersNoiseCovBads (s : CallState) : List String × CallState :=
  (s.filters.noise_cov.bads, s)

/-- Reading `filters['noise_cov']['names']`. -/
def readFiltersNoiseCovNames (s : CallState) : List String × CallState :=
  (s.filters.noise_cov.names, s)

/-- Reading `filters['weights']`. -/
def readFiltersWeights (s : CallState) : Mat × CallState :=
  (s.filters.weights, s)

/-- Reading `filters['whitener']`. -/
def readFiltersWhitener (s : CallState) : Mat × CallState :=
  (s.filters.whitener, s)

/-- Reading the `forward` argument. -/
def readForwardOp (s : CallState) : Forward × CallState :=
  (s.forward, s)

/-- `make_resolution_matrix_lcmv` with the caller's objects threaded as
explicit state: every access the Python body makes to `forward` and
`filters` is one of the read primitives above (the body contains no
mutating operation; `pick_channels_forward` returns a new object and the
local name `forward` is merely rebound). -/
def make_resolution_matrix_lcmv_call (s0 : CallState) :
    Except MneError (Mat × List LogRec) × CallState :=
  let (bads_filt, s1) := readFiltersNoiseCovBads s0
  let (ch_names0, s2) := readFiltersNoiseCovNames s1
  let ch_names := ch_names0.filter (fun c => !(bads_filt.contains c))
  let (fwd0, s3) := readForwardOp s2
  match pick_channels_forward fwd0 ch_names with
  | .error e => (.error e, s3)
  | .ok fwd =>
    let leadfield := fwd.sol
    let (w, s4) := readFiltersWeights s3
    let (wh, s5) := readFiltersWhitener s4
    match npdot w wh with
    | .error e => (.error e, s5)
    | .ok filtmat =>
      match npdot filtmat leadfield with
      | .error e => (.error e, s5)
      | .ok resmat =>
        (.ok (resmat, [LogRec.info (nrows resmat) (ncols resmat)]), s5)

/-! Concrete fixtures used by witnesses and counterexamples. -/

/-- A forward operator with two channels and two dipole columns. -/
def exFwd : Forward := { ch_names := ["A", "B"], sol := [[1, 2], [3, 4]] }

/-- A filter over the same two channels, identity weights and whitener,
no bad channels. -/
def exFilt : Beamformer :=
  { weights := [[1, 0], [0, 1]], whitener := [[1, 0], [0, 1]],
    noise_cov := { names := ["A", "B"], bads := [] } }

/-- A filter whose covariance lists a channel `C` that the forward
operator `exFwd` lacks, with bad channels `["B", "C"]` — a strict
superset of the missing set `["C"]`.  Its weights/whitener act on the
single remaining good channel `"A"`. -/
def cFilt : Beamformer :=
  { weights := [[2]], whitener := [[1]],
    noise_cov := { names := ["A", "B", "C"], bads := ["B", "C"] } }

/-- A filter whose bad-channel list covers its whole covariance channel
list, so its good-channel list is empty; weights have zero columns. -/
def eFilt : Beamformer :=
  { weights := [[], []], whitener := [],
    noise_cov := { names := ["A", "B"], bads := ["A", "B"] } }

/-- Modelled from the spec: the Minimum-Norm Resolution Matrix Builder
(§4.2) is not part of the excerpted sources (only the LCMV builder is).
Per the spec, the plain minimum-norm method's inverse weights for a
whitened fixed-orientation leadfield `L` are the Tikhonov-regularized
pseudoinverse `Lᵀ · (L·Lᵀ + λ²·1)⁻¹` with `λ² = 1/SNR²`; the inverse
factor is supplied explicitly as the matrix argument `Minv`. -/
def mn_inverse_weights {n m : ℕ} (L : Matrix (Fin n) (Fin m) ℚ)
    (Minv : Matrix (Fin n) (Fin n) ℚ) : Matrix (Fin m) (Fin n) ℚ :=
  L.transpose * Minv

/-- Modelled from the spec: §4.2's builder right-multiplies the inverse
weight matrix by the leadfield,
`resolution_matrix = inverse_weights · leadfield`. -/
def make_resolution_matrix_mne {n m : ℕ} (L : Matrix (Fin n) (Fin m) ℚ)
    (Minv : Matrix (Fin n) (Fin n) ℚ) : Matrix (Fin m) (Fin m) ℚ :=
  mn_inverse_weights L Minv * L

/-- The regularized Gram matrix `L·Lᵀ + λ²·1` whose inverse enters the
plain minimum-norm weights. -/
def mn_gram {n m : ℕ} (L : Matrix (Fin n) (Fin m) ℚ) (lam2 : ℚ) :
    Matrix (Fin n) (Fin n) ℚ :=
  L * L.transpose + lam2 • 1

/-! Helper lemmas about the pipeline. -/

/-- The body of `make_resolution_matrix_lcmv` as an explicit `Except`
pipeline over its three fallible steps. -/
theorem make_eq_pipeline (forward : Forward) (filters : Beamformer) :
    make_resolution_matrix_lcmv forward filters =
      (pick_channels_forward forward (good_ch_names filters)).bind (fun fwdR =>
        (_get_matrix_from_lcmv filters).bind (fun fm =>
          (npdot fm fwdR.sol).bind (fun R =>
            pure (R, [LogRec.info (nrows R) (ncols R)])))) := rfl

/-- `npdot` succeeds exactly when the inner dimensions agree, and its
value is the raw product. -/
theorem npdot_ok {A B C : Mat} (h : npdot A B = .ok C) : C = matMul A B := by
  unfold npdot at h
  split at h
  · exact (Except.ok.injEq _ _).mp h |>.symm
  · exact absurd h (by simp)

/-- `npdot` never reports a channel mismatch. -/
theorem npdot_ne_channelMismatch (A B : Mat) :
    npdot A B ≠ .error .channelMismatch := by
  unfold npdot
  split <;> simp

/-- On success, `pick_channels_forward` returns a forward whose channel
list is exactly the requested one. -/
theorem pick_channels_forward_ok {forward fwdR : Forward} {chs : List String}
    (h : pick_channels_forward forward chs = .ok fwdR) :
    fwdR.ch_names = chs := by
  unfold pick_channels_forward at h
  split at h
  · cases h; rfl
  · exact absurd h (by simp)

/-- `pick_channels_forward` fails (always with a channel mismatch)
exactly when some requested channel is absent from the forward. -/
theorem pick_channels_forward_error_iff (forward : Forward) (chs : List String)
    (e : MneError) :
    pick_channels_forward forward chs = .error e ↔
      (e = .channelMismatch ∧ ¬ ∀ c ∈ chs, c ∈ forward.ch_names) := by
  unfold pick_channels_forward
  split <;> rename_i hall
  · simp only [List.all_eq_true, List.elem_iff] at hall
    simp only [reduceCtorEq, false_iff, not_and, not_not]
    exact fun _ => hall
  · simp only [List.all_eq_true, List.elem_iff] at hall
    constructor
    · intro h
      cases h
      exact ⟨rfl, hall⟩
    · intro ⟨he, _⟩
      rw [he]

/-- Success characterization of `make_resolution_matrix_lcmv`: the call
returns `(R, log)` exactly when channel restriction succeeds, both
products are shape-compatible, `R` is the final product, and `log` is
the single dimension record. -/
theorem make_ok_iff (forward : Forward) (filters : Beamformer) (R : Mat)
    (log : List LogRec) :
    make_resolution_matrix_lcmv forward filters = .ok (R, log) ↔
      ∃ fwdR, pick_channels_forward forward (good_ch_names filters) = .ok fwdR ∧
        ∃ fm, _get_matrix_from_lcmv filters = .ok fm ∧
          npdot fm fwdR.sol = .ok R ∧
          log = [LogRec.info (nrows R) (ncols R)] := by
  rw [make_eq_pipeline]
  cases hp : pick_channels_forward forward (good_ch_names filters) with
  | error e => simp [hp, Except.bind]
  | ok fwdR =>
    cases hf : _get_matrix_from_lcmv filters with
    | error e => simp [hp, hf, Except.bind]
    | ok fm =>
      cases hr : npdot fm fwdR.sol with
      | error e => simp [hp, hf, hr, Except.bind]
      | ok C =>
        simp only [hp, hf, hr, Except.bind, pure, Except.pure, Except.ok.injEq,
          Prod.mk.injEq, exists_eq_left']
        constructor
        · intro ⟨h1, h2⟩
          subst h1
          exact ⟨rfl, h2.symm⟩
        · intro ⟨h1, h2⟩
          subst h1
          exact ⟨rfl, h2.symm⟩

/-- Failure characterization of `make_resolution_matrix_lcmv`: an error
is returned exactly when one of the three internal steps fails with that
very error (channel restriction, `weights·whitener`, or
`filtmat·leadfield`), the earlier steps having succeeded. -/
theorem make_error_iff (forward : Forward) (filters : Beamformer)
    (e : MneError) :
    make_resolution_matrix_lcmv forward filters = .error e ↔
      pick_channels_forward forward (good_ch_names filters) = .error e ∨
        ∃ fwdR, pick_channels_forward forward (good_ch_names filters) = .ok fwdR ∧
          (_get_matrix_from_lcmv filters = .error e ∨
           ∃ fm, _get_matrix_from_lcmv filters = .ok fm ∧
             npdot fm fwdR.sol = .error e) := by
  rw [make_eq_pipeline]
  cases hp : pick_channels_forward forward (good_ch_names filters) with
  | error e0 => simp [hp, Except.bind]
  | ok fwdR =>
    cases hf : _get_matrix_from_lcmv filters with
    | error e0 => simp [hp, hf, Except.bind]
    | ok fm =>
      cases hr : npdot fm fwdR.sol with
      | error e0 => simp [hp, hf, hr, Except.bind]
      | ok C => simp [hp, hf, hr, Except.bind, pure, Except.pure]

/-- The raw product has as many rows as its left factor. -/
theorem nrows_matMul (A B : Mat) : nrows (matMul A B) = nrows A := by
  unfold nrows matMul
  simp

/-- Every row of the raw product has `ncols B` entries. -/
theorem length_mem_matMul {A B : Mat} {r : List ℤ} (h : r ∈ matMul A B) :
    r.length = ncols B := by
  unfold matMul at h
  obtain ⟨arow, -, rfl⟩ := List.mem_map.mp h
  simp

/-- For a nonempty left factor the product's column count is `ncols B`. -/
theorem ncols_matMul_of_ne {A B : Mat} (h : A ≠ []) :
    ncols (matMul A B) = ncols B := by
  unfold matMul ncols
  cases A with
  | nil => exact absurd rfl h
  | cons a as => simp

/-- C1: `make_resolution_matrix_lcmv` computes its result by exactly the
documented steps — the good-channel list is the noise covariance's names
with the covariance's bad channels removed in order, the forward
operator is restricted to exactly those channels in that order, and the
returned matrix is `(weights · whitener) · leadfield` with `leadfield`
the restricted forward's solution matrix. -/
theorem make_resolution_matrix_lcmv_steps (forward : Forward)
    (filters : Beamformer) (R : Mat) (log : List LogRec)
    (h : make_resolution_matrix_lcmv forward filters = .ok (R, log)) :
    ∃ fwdR : Forward,
      pick_channels_forward forward
          (filters.noise_cov.names.filter
            (fun c => !(filters.noise_cov.bads.contains c))) = .ok fwdR ∧
      fwdR.ch_names =
        filters.noise_cov.names.filter
          (fun c => !(filters.noise_cov.bads.contains c)) ∧
      R = matMul (matMul filters.weights filters.whitener) fwdR.sol := by
  obtain ⟨fwdR, hp, fm, hf, hr, -⟩ := (make_ok_iff forward filters R log).mp h
  refine ⟨fwdR, hp, pick_channels_forward_ok hp, ?_⟩
  have h1 : fm = matMul filters.weights filters.whitener := npdot_ok hf
  have h2 : R = matMul fm fwdR.sol := npdot_ok hr
  rw [h2, h1]

/-- Witness for C1 at a concrete forward/filter pair. -/
theorem make_resolution_matrix_lcmv_steps_witness :
    make_resolution_matrix_lcmv exFwd exFilt
        = .ok ([[1, 2], [3, 4]], [LogRec.info 2 2]) ∧
    (∃ fwdR : Forward,
      pick_channels_forward exFwd
          (exFilt.noise_cov.names.filter
            (fun c => !(exFilt.noise_cov.bads.contains c))) = .ok fwdR ∧
      fwdR.ch_names =
        exFilt.noise_cov.names.filter
          (fun c => !(exFilt.noise_cov.bads.contains c)) ∧
      [[(1 : ℤ), 2], [3, 4]]
        = matMul (matMul exFilt.weights exFilt.whitener) fwdR.sol) :=
  ⟨by decide,
   make_resolution_matrix_lcmv_steps exFwd exFilt [[1, 2], [3, 4]]
     [LogRec.info 2 2] (by decide)⟩

/-- C2 counterexample: for `exFwd`/`cFilt` the filter's bad-channel list
`["B", "C"]` is a strict superset of the channels of the covariance
missing from the forward operator (`["C"]`), yet the call succeeds with
a resolution matrix instead of raising a channel mismatch. -/
theorem make_resolution_matrix_lcmv_superset_bads_ok :
    (∀ c ∈ cFilt.noise_cov.names.filter
        (fun c => !(exFwd.ch_names.contains c)), c ∈ cFilt.noise_cov.bads) ∧
    (∃ c ∈ cFilt.noise_cov.bads,
      c ∉ cFilt.noise_cov.names.filter
        (fun c => !(exFwd.ch_names.contains c))) ∧
    make_resolution_matrix_lcmv exFwd cFilt
      = .ok ([[2, 4]], [LogRec.info 1 2]) := by
  refine ⟨?_, ⟨"B", ?_, ?_⟩, ?_⟩ <;> decide

/-- C2 amended: `make_resolution_matrix_lcmv` fails with a channel
mismatch exactly when the filter's good-channel list (covariance names
minus bad channels) is not contained in the forward operator's channel
list; covering all missing channels with bad channels therefore avoids
the mismatch instead of causing it. -/
theorem make_resolution_matrix_lcmv_channelMismatch_iff (forward : Forward)
    (filters : Beamformer) :
    make_resolution_matrix_lcmv forward filters = .error .channelMismatch ↔
      ¬ (∀ c ∈ good_ch_names filters, c ∈ forward.ch_names) := by
  rw [make_error_iff]
  constructor
  · rintro (hp | ⟨fwdR, hp, (hf | ⟨fm, hf, hr⟩)⟩)
    · exact ((pick_channels_forward_error_iff _ _ _).mp hp).2
    · exact absurd hf (npdot_ne_channelMismatch filters.weights filters.whitener)
    · exact absurd hr (npdot_ne_channelMismatch fm fwdR.sol)
  · intro hmiss
    exact .inl ((pick_channels_forward_error_iff _ _ _).mpr ⟨rfl, hmiss⟩)

/-- C3: on success the resolution matrix has one row per dipole row of
the filter's weight matrix and one column per dipole column of the
restricted leadfield; when both counts come from the same source count
under the same orientation constraint the matrix is square. -/
theorem make_resolution_matrix_lcmv_shape (forward : Forward)
    (filters : Beamformer) (R : Mat) (log : List LogRec)
    (h : make_resolution_matrix_lcmv forward filters = .ok (R, log)) :
    ∃ fwdR : Forward,
      pick_channels_forward forward (good_ch_names filters) = .ok fwdR ∧
      nrows R = nrows filters.weights ∧
      (∀ row ∈ R, row.length = ncols fwdR.sol) ∧
      (∀ (nSrc : Nat) (o : Orient),
        nrows filters.weights = nComp o * nSrc →
        ncols fwdR.sol = nComp o * nSrc →
        nrows R = ncols R) := by
  obtain ⟨fwdR, hp, fm, hf, hr, -⟩ := (make_ok_iff forward filters R log).mp h
  have h1 : fm = matMul filters.weights filters.whitener := npdot_ok hf
  have h2 : R = matMul fm fwdR.sol := npdot_ok hr
  have hrows : nrows R = nrows filters.weights := by
    rw [h2, nrows_matMul, h1, nrows_matMul]
  refine ⟨fwdR, hp, hrows, ?_, ?_⟩
  · intro row hrow
    rw [h2] at hrow
    exact length_mem_matMul hrow
  · intro nSrc o hw hl
    by_cases hR : R = []
    · subst hR
      have h0 : nComp o * nSrc = 0 := by
        rw [← hw, ← hrows]; rfl
      simp [nrows, ncols, hrows, hw, h0]
    · have hfm : fm ≠ [] := by
        intro hfm0
        exact hR (by rw [h2, hfm0]; rfl)
      have hcols : ncols R = ncols fwdR.sol := by
        rw [h2]; exact ncols_matMul_of_ne hfm
      rw [hrows, hw, hcols, hl]

/-- Witness for C3 at a concrete forward/filter pair. -/
theorem make_resolution_matrix_lcmv_shape_witness :
    make_resolution_matrix_lcmv exFwd exFilt
        = .ok ([[1, 2], [3, 4]], [LogRec.info 2 2]) ∧
    (∃ fwdR : Forward,
      pick_channels_forward exFwd (good_ch_names exFilt) = .ok fwdR ∧
      nrows [[(1 : ℤ), 2], [3, 4]] = nrows exFilt.weights ∧
      (∀ row ∈ [[(1 : ℤ), 2], [3, 4]], row.length = ncols fwdR.sol) ∧
      (∀ (nSrc : Nat) (o : Orient),
        nrows exFilt.weights = nComp o * nSrc →
        ncols fwdR.sol = nComp o * nSrc →
        nrows [[(1 : ℤ), 2], [3, 4]] = ncols [[(1 : ℤ), 2], [3, 4]])) :=
  ⟨by decide,
   make_resolution_matrix_lcmv_shape exFwd exFilt [[1, 2], [3, 4]]
     [LogRec.info 2 2] (by decide)⟩

/-- The state-threaded call equals the pure recomputation paired with
the untouched caller state. -/
theorem make_resolution_matrix_lcmv_call_eq (s : CallState) :
    make_resolution_matrix_lcmv_call s =
      (make_resolution_matrix_lcmv s.forward s.filters, s) := by
  simp only [make_resolution_matrix_lcmv_call, readFiltersNoiseCovBads,
    readFiltersNoiseCovNames, readForwardOp, readFiltersWeights,
    readFiltersWhitener]
  rw [make_eq_pipeline]
  simp only [good_ch_names, _get_matrix_from_lcmv]
  cases hp : pick_channels_forward s.forward
      (s.filters.noise_cov.names.filter
        (fun c => !(s.filters.noise_cov.bads.contains c))) with
  | error e => simp [hp, Except.bind]
  | ok fwdR =>
    cases hf : npdot s.filters.weights s.filters.whitener with
    | error e => simp [hp, hf, Except.bind]
    | ok fm =>
      cases hr : npdot fm fwdR.sol with
      | error e => simp [hp, hf, hr, Except.bind]
      | ok C => simp [hp, hf, hr, Except.bind, pure, Except.pure]

/-- C6: `make_resolution_matrix_lcmv` is a pure, deterministic function
of its two inputs — identical inputs give identical results — and the
state-threaded rendering of the call returns the caller's objects
untouched, with no effect beyond the returned value and its log trace. -/
theorem make_resolution_matrix_lcmv_deterministic (f1 f2 : Forward)
    (b1 b2 : Beamformer) (hf : f1 = f2) (hb : b1 = b2) :
    make_resolution_matrix_lcmv f1 b1 = make_resolution_matrix_lcmv f2 b2 ∧
    make_resolution_matrix_lcmv_call ⟨f1, b1⟩
      = (make_resolution_matrix_lcmv f1 b1, ⟨f1, b1⟩) := by
  subst hf
  subst hb
  exact ⟨rfl, make_resolution_matrix_lcmv_call_eq ⟨f1, b1⟩⟩

/-- Witness for C6 at a concrete forward/filter pair. -/
theorem make_resolution_matrix_lcmv_deterministic_witness :
    (exFwd = exFwd ∧ exFilt = exFilt) ∧
    (make_resolution_matrix_lcmv exFwd exFilt
        = make_resolution_matrix_lcmv exFwd exFilt ∧
      make_resolution_matrix_lcmv_call ⟨exFwd, exFilt⟩
        = (make_resolution_matrix_lcmv exFwd exFilt, ⟨exFwd, exFilt⟩)) :=
  ⟨⟨rfl, rfl⟩,
   make_resolution_matrix_lcmv_deterministic exFwd exFwd exFilt exFilt rfl rfl⟩

/-- C7: no local error recovery — the call fails with `e` exactly when
one of its three internal steps (channel restriction,
`weights·whitener`, `filtmat·leadfield`) fails with that very error, the
earlier steps having succeeded; in particular no failure is replaced by
a default return value. -/
theorem make_resolution_matrix_lcmv_propagates (forward : Forward)
    (filters : Beamformer) (e : MneError) :
    make_resolution_matrix_lcmv forward filters = .error e ↔
      pick_channels_forward forward (good_ch_names filters) = .error e ∨
        ∃ fwdR, pick_channels_forward forward (good_ch_names filters)
            = .ok fwdR ∧
          (_get_matrix_from_lcmv filters = .error e ∨
           ∃ fm, _get_matrix_from_lcmv filters = .ok fm ∧
             npdot fm fwdR.sol = .error e) :=
  make_error_iff forward filters e

/-- C8: on success the emitted log trace is exactly one informational
record carrying the two dimensions of the returned matrix. -/
theorem make_resolution_matrix_lcmv_log (forward : Forward)
    (filters : Beamformer) (R : Mat) (log : List LogRec)
    (h : make_resolution_matrix_lcmv forward filters = .ok (R, log)) :
    log = [LogRec.info (nrows R) (ncols R)] := by
  obtain ⟨fwdR, hp, fm, hf, hr, hlog⟩ := (make_ok_iff forward filters R log).mp h
  exact hlog

/-- Witness for C8 at a concrete forward/filter pair. -/
theorem make_resolution_matrix_lcmv_log_witness :
    make_resolution_matrix_lcmv exFwd exFilt
        = .ok ([[1, 2], [3, 4]], [LogRec.info 2 2]) ∧
    [LogRec.info 2 2]
      = [LogRec.info (nrows [[(1 : ℤ), 2], [3, 4]])
          (ncols [[(1 : ℤ), 2], [3, 4]])] :=
  ⟨by decide,
   make_resolution_matrix_lcmv_log exFwd exFilt [[1, 2], [3, 4]]
     [LogRec.info 2 2] (by decide)⟩

/-- C9: a call leaves the caller's forward and filter objects exactly as
they were and its result is the whole-matrix recomputation from those
inputs. -/
theorem make_resolution_matrix_lcmv_frame (s : CallState) :
    (make_resolution_matrix_lcmv_call s).2 = s ∧
    (make_resolution_matrix_lcmv_call s).1 =
      make_resolution_matrix_lcmv s.forward s.filters := by
  rw [make_resolution_matrix_lcmv_call_eq]
  exact ⟨rfl, rfl⟩

/-- For a channel of the covariance's name list, membership in the bad
list restricted to those names agrees with membership in the bad list. -/
theorem contains_filter_names (bads names : List String) (c : String)
    (hc : c ∈ names) :
    (bads.filter (fun b => names.contains b)).contains c
      = bads.contains c := by
  rw [Bool.eq_iff_iff]
  simp only [List.elem_iff, List.mem_filter]
  constructor
  · intro ⟨h1, _⟩
    exact h1
  · intro h1
    exact ⟨h1, by simpa [List.elem_iff] using hc⟩

/-- C10: bad-channel entries that do not occur in the covariance's
channel-name list are silently ignored — the call behaves exactly as the
same call with those entries removed from the bad list — and the
good-channel list may even become empty with the call still returning a
result rather than raising. -/
theorem make_resolution_matrix_lcmv_ignores_foreign_bads :
    (∀ (forward : Forward) (filters : Beamformer),
      make_resolution_matrix_lcmv forward
        { filters with noise_cov :=
            { filters.noise_cov with bads :=
                (filters.noise_cov.bads.filter
                  (fun b => filters.noise_cov.names.contains b)) } }
        = make_resolution_matrix_lcmv forward filters) ∧
    good_ch_names eFilt = [] ∧
    make_resolution_matrix_lcmv exFwd eFilt
      = .ok ([[], []], [LogRec.info 2 0]) := by
  refine ⟨?_, by decide, by decide⟩
  intro forward filters
  have hlist : filters.noise_cov.names.filter
      (fun c => !((filters.noise_cov.bads.filter
        (fun b => filters.noise_cov.names.contains b)).contains c))
      = filters.noise_cov.names.filter
          (fun c => !(filters.noise_cov.bads.contains c)) := by
    apply List.filter_congr
    intro c hc
    rw [contains_filter_names filters.noise_cov.bads
      filters.noise_cov.names c hc]
  rw [make_eq_pipeline, make_eq_pipeline]
  simp only [good_ch_names, _get_matrix_from_lcmv]
  rw [hlist]

/-- C5: for a fixed-orientation leadfield with loose=0 plain
minimum-norm weights `Lᵀ·Minv` (with `Minv` the two-sided inverse of the
regularized Gram matrix), the resolution matrix equals its transpose
exactly, hence lies within every positive elementwise tolerance of it. -/
theorem make_resolution_matrix_mne_symmetric {n m : ℕ}
    (L : Matrix (Fin n) (Fin m) ℚ) (lam2 : ℚ)
    (Minv : Matrix (Fin n) (Fin n) ℚ)
    (hr : mn_gram L lam2 * Minv = 1) (_hl : Minv * mn_gram L lam2 = 1) :
    (make_resolution_matrix_mne L Minv).transpose
        = make_resolution_matrix_mne L Minv ∧
    ∀ ε : ℚ, 0 < ε → ∀ i j,
      |make_resolution_matrix_mne L Minv i j
        - (make_resolution_matrix_mne L Minv).transpose i j| < ε := by
  have hMsymm : (mn_gram L lam2).transpose = mn_gram L lam2 := by
    unfold mn_gram
    simp [Matrix.transpose_add, Matrix.transpose_mul, Matrix.transpose_smul]
  have hMinvT : Minv.transpose = Minv := by
    have h1 : Minv.transpose * mn_gram L lam2 = 1 := by
      calc Minv.transpose * mn_gram L lam2
          = Minv.transpose * (mn_gram L lam2).transpose := by rw [hMsymm]
        _ = (mn_gram L lam2 * Minv).transpose := by
              rw [Matrix.transpose_mul]
        _ = 1 := by rw [hr, Matrix.transpose_one]
    calc Minv.transpose = Minv.transpose * 1 := by rw [Matrix.mul_one]
      _ = Minv.transpose * (mn_gram L lam2 * Minv) := by rw [hr]
      _ = Minv.transpose * mn_gram L lam2 * Minv := by
            rw [Matrix.mul_assoc]
      _ = 1 * Minv := by rw [h1]
      _ = Minv := Matrix.one_mul Minv
  have hsym : (make_resolution_matrix_mne L Minv).transpose
      = make_resolution_matrix_mne L Minv := by
    unfold make_resolution_matrix_mne mn_inverse_weights
    calc (L.transpose * Minv * L).transpose
        = L.transpose * (L.transpose * Minv).transpose := by
          rw [Matrix.transpose_mul]
      _ = L.transpose * (Minv.transpose * L) := by
          rw [Matrix.transpose_mul, Matrix.transpose_transpose]
      _ = L.transpose * Minv * L := by rw [hMinvT, Matrix.mul_assoc]
  refine ⟨hsym, fun ε hε i j => ?_⟩
  rw [hsym]
  simpa using hε

/-- Witness for C5 at the one-channel identity leadfield with λ² = 0. -/
theorem make_resolution_matrix_mne_symmetric_witness :
    (mn_gram (1 : Matrix (Fin 1) (Fin 1) ℚ) 0 * 1 = 1 ∧
     1 * mn_gram (1 : Matrix (Fin 1) (Fin 1) ℚ) 0 = 1) ∧
    ((make_resolution_matrix_mne (1 : Matrix (Fin 1) (Fin 1) ℚ) 1).transpose
        = make_resolution_matrix_mne (1 : Matrix (Fin 1) (Fin 1) ℚ) 1 ∧
      ∀ ε : ℚ, 0 < ε → ∀ i j,
        |make_resolution_matrix_mne (1 : Matrix (Fin 1) (Fin 1) ℚ) 1 i j
          - (make_resolution_matrix_mne
              (1 : Matrix (Fin 1) (Fin 1) ℚ) 1).transpose i j| < ε) :=
  ⟨⟨by simp [mn_gram], by simp [mn_gram]⟩,
   make_resolution_matrix_mne_symmetric 1 0 1
     (by simp [mn_gram]) (by simp [mn_gram])⟩

end MneRes
